import Mathlib

/-
Shallow embedding of src/trace.js (the async causal stack-trace engine).

Modelling conventions:
* A JS `Map` is an insertion-ordered association list with distinct keys
  (`mapSet` updates in place, `mapGet` finds by key, `mapDelete` removes).
* `Trace` objects live in a `Heap` keyed by `asyncId`; object identity is
  the `asyncId`, valid because the host allocates a unique id per context.
  Edges (`descendants`) hold ids of heap entries, which survive Registry
  removal exactly as JS references keep objects alive.
* The global `traces` Map is split into the object heap plus the
  `registry` of ids currently present; `tracesGet` consults the registry.
* In-place array mutation (pop/push in `appendUniqueFrames`) is modelled
  by value passing: the handler returns the same (mutated) array it was
  given, so the caller's array contents after the call are the returned
  list.
* `Error.stackTraceLimit` is threaded as explicit state through
  `getCallSites`; a raising capture aborts before later statements run.
-/

/-- MAX_DESCENDANT_COUNT from src/trace.js line 12. -/
def MAX_DESCENDANT_COUNT : Nat := 10

/-- MAX_DESCENDANT_DEPTH_TRAVERSAL from src/trace.js line 13. -/
def MAX_DESCENDANT_DEPTH_TRAVERSAL : Nat := 10

/-- MAX_STACKS_TO_JOIN from src/trace.js line 14. -/
def MAX_STACKS_TO_JOIN : Nat := 50

/-- Value copy of a V8 CallSite: the four observations the code makes
(`getFileName`, `getLineNumber`, `getColumnNumber`, `toString`), mirroring
class CallSiteCopy (src/trace.js lines 70-93). The marker call site
returns a null file name, hence the `Option` types. -/
structure CallSite where
  fileName : Option String
  lineNumber : Option Nat
  columnNumber : Option Nat
  renderText : String
deriving DecidableEq, Repr

/-- asyncContextCallSiteMarker from src/trace.js lines 20-25: file name
null, line 0, column 0. -/
def asyncContextCallSiteMarker : CallSite :=
  ⟨none, some 0, some 0, "____________________"⟩

/-- equalCallSite from src/trace.js lines 109-117: compares file, line and
column (JS `===`; null === null is true, matching `Option` equality). -/
def equalCallSite (a b : CallSite) : Bool :=
  a.fileName == b.fileName &&
  a.lineNumber == b.lineNumber &&
  a.columnNumber == b.columnNumber

/-- CallSiteCopy constructor (src/trace.js lines 71-76): copies the four
observed fields into a fresh value. -/
def callSiteCopy (c : CallSite) : CallSite :=
  ⟨c.fileName, c.lineNumber, c.columnNumber, c.renderText⟩

/-- JS `Map.prototype.get`: first entry with the key. -/
def mapGet {V : Type} (m : List (Nat × V)) (k : Nat) : Option V :=
  (m.find? (fun p => p.1 == k)).map Prod.snd

/-- JS `Map.prototype.set`: update the existing entry in place (keeping
its position) or append a new one. -/
def mapSet {V : Type} (m : List (Nat × V)) (k : Nat) (v : V) : List (Nat × V) :=
  if m.any (fun p => p.1 == k) then m.map (fun p => if p.1 == k then (k, v) else p)
  else m ++ [(k, v)]

/-- JS `Map.prototype.delete`: drop the entry with the key. -/
def mapDelete {V : Type} (m : List (Nat × V)) (k : Nat) : List (Nat × V) :=
  m.filter (fun p => p.1 != k)

/-- Update the value stored at key `k` by `f` (used to model mutation of
a Trace object held in the heap). -/
def mapModify {V : Type} (m : List (Nat × V)) (k : Nat) (f : V → V) : List (Nat × V) :=
  m.map (fun p => if p.1 == k then (p.1, f p.2) else p)

/-- sort from src/trace.js lines 203-205: ascending numeric sort of the
key iterator (the result of `Array.prototype.sort` with comparator
`a - b`). -/
def sort (l : List Nat) : List Nat := l.insertionSort (fun a b => a ≤ b)

/-- rsort from src/trace.js lines 207-209: descending numeric sort
(comparator `b - a`). -/
def rsort (l : List Nat) : List Nat := l.insertionSort (fun a b => b ≤ a)

/-- A Trace's `stackMap`: JS Map from asyncId to captured frames. -/
abbrev StackMap := List (Nat × List CallSite)

/-- mergeIntoStackMap from src/trace.js lines 162-166: every entry of
`source` is written into `dest` (a later write for the same key
overwrites the earlier one). -/
def mergeIntoStackMap (dest source : StackMap) : StackMap :=
  source.foldl (fun d p => mapSet d p.1 p.2) dest

/-- Loop body of removeOldestFromStackMap (src/trace.js lines 173-178):
iterate the (pre-materialised) ascending key list, returning as soon as
the size drops below MAX_STACKS_TO_JOIN, else deleting the key. -/
def removeOldestLoop : List Nat → StackMap → StackMap
  | [], m => m
  | k :: ks, m =>
    if m.length < MAX_STACKS_TO_JOIN then m
    else removeOldestLoop ks (mapDelete m k)

/-- removeOldestFromStackMap from src/trace.js lines 168-179. -/
def removeOldestFromStackMap (m : StackMap) : StackMap :=
  if m.length < MAX_STACKS_TO_JOIN then m
  else removeOldestLoop (sort (m.map Prod.fst)) m

/-- Deduplication loop of appendUniqueFrames (src/trace.js lines
193-197): for i = 1.. while more than one frame remains, compare
`newFrames[newFrames.length - i]` (the i-th element of `rev`, the
reversed new frames) with the current last frame and pop on a match.
There is no break on a mismatch: the loop keeps advancing i. -/
def dropMatching : List CallSite → List CallSite → List CallSite
  | frames, [] => frames
  | frames, f :: rest =>
    if frames.length ≤ 1 then frames
    else
      match frames.getLast? with
      | some lastFrame =>
        if equalCallSite f lastFrame then dropMatching frames.dropLast rest
        else dropMatching frames rest
      | none => frames

/-- appendUniqueFrames from src/trace.js lines 192-201: run the
deduplication loop, then push the boundary marker and the new frames. -/
def appendUniqueFrames (frames newFrames : List CallSite) : List CallSite :=
  dropMatching frames newFrames.reverse ++ asyncContextCallSiteMarker :: newFrames

/-- class Trace's data (src/trace.js lines 119-127): id, accumulated
stack map (initially `{asyncId: stack}`), descendant edges, disabled
flag. Edges are ids of heap entries (JS object references). -/
structure Trace where
  asyncId : Nat
  stackMap : StackMap
  descendants : List Nat
  disabled : Bool
deriving DecidableEq, Repr

/-- appendExtendedFrames from src/trace.js lines 181-190: for each key of
the trace's stackMap in descending order, splice that contribution onto
the frame array. The `none` branch is unreachable: every iterated key is
a key of the map. -/
def appendExtendedFrames (frames : List CallSite) (trace : Trace) : List CallSite :=
  (rsort (trace.stackMap.map Prod.fst)).foldl
    (fun fs asyncId =>
      match mapGet trace.stackMap asyncId with
      | some newFrames => appendUniqueFrames fs newFrames
      | none => fs)
    frames

/-- The object heap: every Trace ever constructed, keyed by asyncId. -/
abbrev Heap := List (Nat × Trace)

/-- Descendant edges of the trace stored at an id (empty for an absent
id; absent ids never occur in reachable states). -/
def heapGraph (heap : Heap) : Nat → List Nat :=
  fun id => ((mapGet heap id).map Trace.descendants).getD []

/-- Trace.walk from src/trace.js lines 148-159, as a fuelled DFS: fuel
`f` corresponds to JS depth `11 - f` (the guard `depth > 10` makes the
call at depth 11 a no-op, so 11 pushing levels run). For each descendant
not yet visited, push it and recurse with one less fuel, threading the
visited array through the loop. -/
def walkNode (g : Nat → List Nat) : Nat → Nat → List Nat → List Nat
  | 0, _, visited => visited
  | fuel+1, node, visited =>
    (g node).foldl
      (fun vis d => if d ∈ vis then vis else walkNode g fuel d (vis ++ [d]))
      visited

/-- Entry point `descendant.walk()` (default arguments visited = [this],
depth = 0): fuel 11 = MAX_DESCENDANT_DEPTH_TRAVERSAL + 1 pushing levels. -/
def walkIds (g : Nat → List Nat) (root : Nat) : List Nat :=
  walkNode g (MAX_DESCENDANT_DEPTH_TRAVERSAL + 1) root [root]

/-- The edge push `this.descendants.push(descendant)` (src/trace.js line
134). -/
def pushDescendant (t : Trace) (descId : Nat) : Trace :=
  { t with descendants := t.descendants ++ [descId] }

/-- One iteration of the propagation loop (src/trace.js lines 142-145):
merge the ancestor's (live) stackMap into the reachable sub-descendant's
stackMap, then trim the sub-descendant's stackMap. -/
def mergeWalkStep (selfId : Nat) (h : Heap) (subId : Nat) : Heap :=
  let source := ((mapGet h selfId).map Trace.stackMap).getD []
  let h1 := mapModify h subId
    (fun tr => { tr with stackMap := mergeIntoStackMap tr.stackMap source })
  mapModify h1 subId
    (fun tr => { tr with stackMap := removeOldestFromStackMap tr.stackMap })

/-- Trace.recordDescendant from src/trace.js lines 129-146: no-op when
disabled or duplicate; push the edge; if the descendant count reaches
MAX_DESCENDANT_COUNT, wipe the edges and disable; otherwise walk the
descendant's reachable subgraph and run the merge/trim step on every
reachable node. -/
def recordDescendant (heap : Heap) (selfId descId : Nat) : Heap :=
  match mapGet heap selfId with
  | none => heap
  | some t =>
    if t.disabled || t.descendants.contains descId then heap
    else if MAX_DESCENDANT_COUNT ≤ t.descendants.length + 1 then
      mapModify heap selfId (fun tr => { tr with descendants := [], disabled := true })
    else
      let heap1 := mapModify heap selfId (fun tr => pushDescendant tr descId)
      (walkIds (heapGraph heap1) descId).foldl (mergeWalkStep selfId) heap1

/-- Global engine state: the object heap plus the ids currently present
in the `traces` Map (src/trace.js line 28). -/
structure TraceState where
  heap : Heap
  registry : List Nat
deriving Repr

/-- traces.get: only ids present in the Map resolve. -/
def tracesGet (s : TraceState) (id : Nat) : Option Trace :=
  if s.registry.contains id then mapGet s.heap id else none

/-- asyncInit from src/trace.js lines 211-221 with the captured stack
passed in (frame capture is the external adapter): construct the Trace,
store it, and if the trigger id resolves, record the edge. -/
def asyncInit (s : TraceState) (asyncId triggerAsyncId : Nat) (stack : List CallSite) :
    TraceState :=
  let trace : Trace := ⟨asyncId, [(asyncId, stack)], [], false⟩
  let s1 : TraceState :=
    ⟨mapSet s.heap asyncId trace,
     if s.registry.contains asyncId then s.registry else s.registry ++ [asyncId]⟩
  match tracesGet s1 triggerAsyncId with
  | some _ => ⟨recordDescendant s1.heap triggerAsyncId asyncId, s1.registry⟩
  | none => s1

/-- asyncDestroy from src/trace.js lines 223-226: drop the id from the
Map; the Trace object survives in the heap (other traces may hold it). -/
def asyncDestroy (s : TraceState) (asyncId : Nat) : TraceState :=
  ⟨s.heap, s.registry.filter (fun i => i != asyncId)⟩

/-- asyncPromiseResolve from src/trace.js lines 228-237: an extra edge
recorded when both ids resolve. -/
def asyncPromiseResolve (s : TraceState) (asyncId triggerAsyncId : Nat) : TraceState :=
  match tracesGet s triggerAsyncId, tracesGet s asyncId with
  | some _, some _ => ⟨recordDescendant s.heap triggerAsyncId asyncId, s.registry⟩
  | _, _ => s

/-- The chain.extend.attach handler (src/trace.js lines 41-53): with the
executing context's trace, extend the frame array in place and return
it; otherwise return the input untouched. The returned list is the
caller's array (the handler mutates and returns `frames` itself). -/
def extendHook (s : TraceState) (executionAsyncId : Nat) (frames : List CallSite) :
    List CallSite :=
  match tracesGet s executionAsyncId with
  | some lastTrace => appendExtendedFrames frames lastTrace
  | none => frames

/-- A sequence of recordDescendant calls (ancestor, descendant). -/
def applyOps (heap : Heap) (ops : List (Nat × Nat)) : Heap :=
  ops.foldl (fun h p => recordDescendant h p.1 p.2) heap

/-- getCallSites from src/trace.js lines 95-107, with
`Error.stackTraceLimit` threaded as state (second component) and the
host capture `chain.callSite` as an adapter that sees the current limit
and may raise. The source has no try/finally: a raising capture
propagates before the restoring assignment `Error.stackTraceLimit =
limit` runs, so the widened limit persists on that path. -/
def getCallSites (callSite : Nat → Except Unit (List CallSite)) (skip : Nat)
    (limit : Nat) : Except Unit (List CallSite) × Nat :=
  match callSite (limit + skip) with
  | Except.ok stack => (Except.ok (stack.map callSiteCopy), limit)
  | Except.error e => (Except.error e, limit + skip)

/-- Reachability in at most `k` steps along the descendant graph. -/
inductive ReachWithin (g : Nat → List Nat) : Nat → Nat → Nat → Prop
  | refl (a k : Nat) : ReachWithin g a a k
  | step (a b c k : Nat) : b ∈ g a → ReachWithin g b c k → ReachWithin g a c (k + 1)

-- Concrete fixtures used by counterexamples and witnesses.

/-- Distinct concrete call sites. -/
def csA : CallSite := ⟨some "a.js", some 1, some 1, "fA"⟩

/-- Distinct concrete call sites. -/
def csB : CallSite := ⟨some "b.js", some 2, some 2, "fB"⟩

/-- Distinct concrete call sites. -/
def csC : CallSite := ⟨some "c.js", some 3, some 3, "fC"⟩

/-- Distinct concrete call sites. -/
def csX : CallSite := ⟨some "x.js", some 9, some 9, "fX"⟩

/-- A two-trace heap: trace 1 and trace 2, freshly constructed. -/
def heapW : Heap :=
  [(1, ⟨1, [(1, [csA])], [], false⟩), (2, ⟨2, [(2, [csB])], [], false⟩)]

/-- The state after create(1, trigger 0) capturing [csA], create(5,
trigger 1) capturing [csB], create(9, trigger 5) capturing [csC]. -/
def stateABC : TraceState :=
  asyncInit (asyncInit (asyncInit ⟨[], []⟩ 1 0 [csA]) 5 1 [csB]) 9 5 [csC]

/-- The state after create(1, trigger 0) capturing [csA], create(2,
trigger 1) capturing [csB], destroy(1). -/
def stateTwo : TraceState :=
  asyncDestroy (asyncInit (asyncInit ⟨[], []⟩ 1 0 [csA]) 2 1 [csB]) 1

/-- An 11-edge chain: n has the single descendant n+1 for n < 11. -/
def chainG : Nat → List Nat := fun n => if n < 11 then [n + 1] else []

/-- Per-node fan-out invariant: a disabled node has no edges, and no node
ever holds MAX_DESCENDANT_COUNT or more edges. -/
def fanoutInv (heap : Heap) : Prop :=
  ∀ p ∈ heap, (p.2.disabled = true → p.2.descendants = []) ∧
    p.2.descendants.length < MAX_DESCENDANT_COUNT

/-- The state after create(100, trigger 0) and nine creations triggered
by context 100 (ids 1..9). -/
def stateFan9 : TraceState :=
  (List.range 9).foldl (fun s i => asyncInit s (i + 1) 100 [])
    (asyncInit ⟨[], []⟩ 100 0 [])

/-- stateFan9 followed by a tenth creation triggered by context 100. -/
def stateFan10 : TraceState := asyncInit stateFan9 10 100 []

-- Helper lemmas.

/-- equalCallSite is reflexive: each compared field equals itself. -/
theorem equalCallSite_refl (a : CallSite) : equalCallSite a a = true := by
  simp [equalCallSite]

/-- When the new frames are exactly a suffix of the frame array and
something precedes them, the deduplication loop pops exactly that
suffix. -/
theorem dropMatching_suffix (rev : List CallSite) :
    ∀ init : List CallSite, init ≠ [] → dropMatching (init ++ rev.reverse) rev = init := by
  induction rev with
  | nil => intro init _; simp [dropMatching]
  | cons r rest ih =>
    intro init hne
    have hassoc : init ++ (r :: rest).reverse = (init ++ rest.reverse) ++ [r] := by
      simp [List.reverse_cons]
    rw [hassoc, dropMatching]
    have hlen : ¬ ((init ++ rest.reverse) ++ [r]).length ≤ 1 := by
      rcases init with _ | ⟨a, t⟩
      · exact absurd rfl hne
      · simp
    rw [if_neg hlen, List.getLast?_concat]
    simp only [equalCallSite_refl, if_true, List.dropLast_concat]
    exact ih init hne

/-- The deduplication loop keeps a nonempty array nonempty and preserves
its first element (it only ever pops while more than one frame
remains). -/
theorem dropMatching_head (rev : List CallSite) :
    ∀ frames : List CallSite, frames ≠ [] →
      dropMatching frames rev ≠ [] ∧ (dropMatching frames rev).head? = frames.head? := by
  induction rev with
  | nil => intro f hf; exact ⟨hf, rfl⟩
  | cons r rest ih =>
    intro f hf
    by_cases hlen : f.length ≤ 1
    · rw [dropMatching, if_pos hlen]; exact ⟨hf, rfl⟩
    · rcases f with _ | ⟨a, t⟩
      · exact absurd rfl hf
      · rcases t with _ | ⟨b, t'⟩
        · simp at hlen
        · rw [dropMatching, if_neg hlen]
          cases hl : (a :: b :: t').getLast? with
          | none => simp at hl
          | some lastF =>
            by_cases heq : equalCallSite r lastF = true
            · simp only [heq, if_true, List.dropLast_cons₂]
              obtain ⟨h1, h2⟩ := ih (a :: (b :: t').dropLast) (by simp)
              exact ⟨h1, h2⟩
            · simp only [heq, if_false]
              exact ih (a :: b :: t') hf

/-- Splicing preserves nonemptiness and the first element. -/
theorem appendUniqueFrames_head (frames newFrames : List CallSite) (h : frames ≠ []) :
    appendUniqueFrames frames newFrames ≠ [] ∧
    (appendUniqueFrames frames newFrames).head? = frames.head? := by
  obtain ⟨hne, hh⟩ := dropMatching_head newFrames.reverse frames h
  constructor
  · simp [appendUniqueFrames]
  · rcases he : dropMatching frames newFrames.reverse with _ | ⟨a, t⟩
    · exact absurd he hne
    · rw [appendUniqueFrames, he]
      rw [he] at hh
      simpa using hh

/-- The deduplication loop removes at most one frame per element of the
reversed new frames. -/
theorem dropMatching_length (rev : List CallSite) :
    ∀ frames : List CallSite, frames.length ≤ (dropMatching frames rev).length + rev.length := by
  induction rev with
  | nil => intro f; simp [dropMatching]
  | cons r rest ih =>
    intro f
    by_cases hlen : f.length ≤ 1
    · rw [dropMatching, if_pos hlen]; simp
    · rw [dropMatching, if_neg hlen]
      cases hl : f.getLast? with
      | none => simp
      | some lastF =>
        by_cases heq : equalCallSite r lastF = true
        · simp only [heq, if_true]
          have h2 := ih f.dropLast
          have hd : f.dropLast.length = f.length - 1 := by simp
          simp only [List.length_cons]
          omega
        · simp only [heq]
          rw [if_neg Bool.false_ne_true]
          have h2 := ih f
          simp only [List.length_cons]
          omega

/-- Splicing strictly grows the frame array (at least the boundary
marker is added). -/
theorem appendUniqueFrames_length (frames newFrames : List CallSite) :
    frames.length + 1 ≤ (appendUniqueFrames frames newFrames).length := by
  have h := dropMatching_length newFrames.reverse frames
  rw [appendUniqueFrames]
  simp only [List.length_append, List.length_cons, List.length_reverse] at h ⊢
  omega

/-- The per-contribution fold of appendExtendedFrames keeps a nonempty
array nonempty and preserves its first element. -/
theorem foldAppend_head (m : StackMap) (ids : List Nat) :
    ∀ frames : List CallSite, frames ≠ [] →
      (ids.foldl
        (fun fs asyncId =>
          match mapGet m asyncId with
          | some newFrames => appendUniqueFrames fs newFrames
          | none => fs) frames) ≠ [] ∧
      (ids.foldl
        (fun fs asyncId =>
          match mapGet m asyncId with
          | some newFrames => appendUniqueFrames fs newFrames
          | none => fs) frames).head? = frames.head? := by
  induction ids with
  | nil => intro f hf; exact ⟨hf, rfl⟩
  | cons i rest ih =>
    intro f hf
    simp only [List.foldl_cons]
    cases hg : mapGet m i with
    | none => simpa [hg] using ih f hf
    | some nf =>
      obtain ⟨h1, h2⟩ := appendUniqueFrames_head f nf hf
      obtain ⟨h3, h4⟩ := ih (appendUniqueFrames f nf) h1
      simp only [hg]
      exact ⟨h3, h4.trans h2⟩

/-- The per-contribution fold never shrinks the frame array, and grows
it strictly if some iterated id resolves in the map. -/
theorem foldAppend_length (m : StackMap) (ids : List Nat) :
    ∀ frames : List CallSite,
      frames.length ≤ (ids.foldl
        (fun fs asyncId =>
          match mapGet m asyncId with
          | some newFrames => appendUniqueFrames fs newFrames
          | none => fs) frames).length := by
  induction ids with
  | nil => intro f; simp
  | cons i rest ih =>
    intro f
    simp only [List.foldl_cons]
    cases hg : mapGet m i with
    | none => simpa [hg] using ih f
    | some nf =>
      have h1 := appendUniqueFrames_length f nf
      have h2 := ih (appendUniqueFrames f nf)
      simp only [hg]
      omega

/-- With at least one resolving id among those iterated, the fold
strictly grows the frame array. -/
theorem foldAppend_length_lt (m : StackMap) (ids : List Nat) (k : Nat)
    (hk : k ∈ ids) (hsome : (mapGet m k).isSome = true) :
    ∀ frames : List CallSite,
      frames.length < (ids.foldl
        (fun fs asyncId =>
          match mapGet m asyncId with
          | some newFrames => appendUniqueFrames fs newFrames
          | none => fs) frames).length := by
  induction ids with
  | nil => cases hk
  | cons i rest ih =>
    intro f
    simp only [List.foldl_cons]
    rcases List.mem_cons.mp hk with heq | hmem
    · subst heq
      cases hg : mapGet m k with
      | none => rw [hg] at hsome; cases hsome
      | some nf =>
        have h1 := appendUniqueFrames_length f nf
        have h2 := foldAppend_length m rest (appendUniqueFrames f nf)
        simp only [hg]
        omega
    · cases hg : mapGet m i with
      | none => simpa [hg] using ih hmem f
      | some nf =>
        have h1 := appendUniqueFrames_length f nf
        have h2 := ih hmem (appendUniqueFrames f nf)
        simp only [hg]
        omega

-- Claim theorems.

/-- C6: render for an id with no Registry entry is the identity function
on its input frames. -/
theorem extendHook_unknown_id (s : TraceState) (id : Nat) (frames : List CallSite)
    (h : tracesGet s id = none) : extendHook s id frames = frames := by
  simp [extendHook, h]

/-- Witness for C6 at the empty state. -/
theorem extendHook_unknown_id_witness :
    tracesGet ⟨[], []⟩ 1 = none ∧ extendHook ⟨[], []⟩ 1 [csA] = [csA] :=
  ⟨by decide, extendHook_unknown_id ⟨[], []⟩ 1 [csA] (by decide)⟩

/-- C2 counterexample: the rendered output is not C's frames first — a
boundary marker is pushed before every spliced contribution, including
the first, so both scenario outputs of the claim start with a marker. -/
theorem render_order_cex :
    extendHook stateABC 9 [] ≠
      [csC, asyncContextCallSiteMarker, csB, asyncContextCallSiteMarker, csA] ∧
    extendHook stateTwo 2 [] ≠ [csB, asyncContextCallSiteMarker, csA] := by decide

/-- C2 (amended): render(9, []) yields a boundary marker, then C's
frames, a marker, B's frames, a marker, A's frames, contributors in
strictly descending id order; and after create(1), create(2, trigger 1),
destroy(1), render(2, []) yields a marker, f2's frames, one marker, then
f1's frames — f2 first, f1 still contributing. -/
theorem render_order_actual :
    extendHook stateABC 9 [] =
      [asyncContextCallSiteMarker, csC, asyncContextCallSiteMarker, csB,
       asyncContextCallSiteMarker, csA] ∧
    extendHook stateTwo 2 [] =
      [asyncContextCallSiteMarker, csB, asyncContextCallSiteMarker, csA] := by decide

/-- C3 counterexample: appending a sequence identical to the current
output tail does grow the output — the boundary marker is always
pushed, so [csX, csA, csB] spliced with its own tail [csA, csB] becomes
strictly longer. -/
theorem appendUniqueFrames_growth_cex :
    ([csX, csA, csB] : List CallSite).length <
      (appendUniqueFrames [csX, csA, csB] [csA, csB]).length := by decide

/-- C3 (amended): when the new frame sequence is identical to the
current output tail and at least one frame precedes that tail, the
overlapping suffix is dropped in full and respliced after the boundary
marker: the net growth is exactly one element, the marker. -/
theorem appendUniqueFrames_suffix_collapse (init newFrames : List CallSite)
    (h : init ≠ []) :
    appendUniqueFrames (init ++ newFrames) newFrames =
      init ++ asyncContextCallSiteMarker :: newFrames ∧
    (appendUniqueFrames (init ++ newFrames) newFrames).length =
      (init ++ newFrames).length + 1 := by
  have he : dropMatching (init ++ newFrames) newFrames.reverse = init := by
    have h2 := dropMatching_suffix newFrames.reverse init h
    rwa [List.reverse_reverse] at h2
  refine ⟨by rw [appendUniqueFrames, he], ?_⟩
  rw [appendUniqueFrames, he]
  simp
  omega

/-- Witness for C3 at a one-frame overlap. -/
theorem appendUniqueFrames_suffix_collapse_witness :
    ([csX] : List CallSite) ≠ [] ∧
    appendUniqueFrames [csX, csA] [csA] = [csX, asyncContextCallSiteMarker, csA] :=
  ⟨by decide, (appendUniqueFrames_suffix_collapse [csX] [csA] (by decide)).1⟩

/-- C9 counterexample: when the capture adapter raises, getCallSites
leaves the widened limit (5 + 2 = 7) in place instead of restoring 5 —
there is no scoped release around the capture call. -/
theorem getCallSites_raise_cex :
    (getCallSites (fun _ => Except.error ()) 2 5).2 = 7 ∧ (7 : Nat) ≠ 5 := by decide

/-- C9 (amended): Error.stackTraceLimit is restored to its pre-call
value on every normally returning exit of getCallSites; when the
underlying capture raises, the widened value persists. -/
theorem getCallSites_restores_limit (callSite : Nat → Except Unit (List CallSite))
    (skip limit : Nat) (stack : List CallSite)
    (h : callSite (limit + skip) = Except.ok stack) :
    (getCallSites callSite skip limit).2 = limit := by
  simp [getCallSites, h]

/-- Witness for C9 with a succeeding capture. -/
theorem getCallSites_restores_limit_witness :
    (fun _ => Except.ok [csA] : Nat → Except Unit (List CallSite)) (5 + 2) =
      Except.ok [csA] ∧
    (getCallSites (fun _ => Except.ok [csA]) 2 5).2 = 5 :=
  ⟨rfl, getCallSites_restores_limit (fun _ => Except.ok [csA]) 2 5 [csA] rfl⟩

/-- C10: rendering never consumes the bottom of the stack being
extended: deduplication pops only from the end and stops once a single
frame remains, so for every nonempty input the first element of the
output equals the first element of the input, for any id. -/
theorem extendHook_preserves_head (s : TraceState) (id : Nat) (frames : List CallSite)
    (h : frames ≠ []) : (extendHook s id frames).head? = frames.head? := by
  rw [extendHook]
  cases tracesGet s id with
  | none => rfl
  | some tr =>
    exact (foldAppend_head tr.stackMap (rsort (tr.stackMap.map Prod.fst)) frames h).2

/-- Witness for C10 on a populated state. -/
theorem extendHook_preserves_head_witness :
    ([csX] : List CallSite) ≠ [] ∧
    (extendHook stateABC 9 [csX]).head? = ([csX] : List CallSite).head? :=
  ⟨by decide, extendHook_preserves_head stateABC 9 [csX] (by decide)⟩

/-- C5 counterexample: the render hook does mutate the caller's array in
place — appendUniqueFrames pops from and pushes onto the very array it
was handed and the handler returns that array, so after rendering for a
registered id the caller's list differs from what was passed in. -/
theorem extendHook_mutation_cex : extendHook stateABC 9 [] ≠ ([] : List CallSite) := by
  decide

/-- C5 (amended): the render hook returns the caller's array mutated in
place; whenever the current id has a Registry entry (its accumulated map
is never empty), the array strictly grows, so the input contents are
preserved only on a Registry miss. -/
theorem extendHook_strict_growth (s : TraceState) (id : Nat) (tr : Trace)
    (frames : List CallSite) (h : tracesGet s id = some tr)
    (hne : tr.stackMap ≠ []) :
    frames.length < (extendHook s id frames).length := by
  rw [extendHook, h]
  rcases hm : tr.stackMap with _ | ⟨p, rest⟩
  · exact absurd hm hne
  · have hkmem : p.1 ∈ rsort (tr.stackMap.map Prod.fst) := by
      rw [rsort]
      have hperm := List.perm_insertionSort (fun a b : Nat => b ≤ a) (tr.stackMap.map Prod.fst)
      rw [hperm.mem_iff, hm]
      simp
    have hsome : (mapGet tr.stackMap p.1).isSome = true := by
      rw [hm, mapGet]
      simp [List.find?]
    simp only [appendExtendedFrames]
    exact foldAppend_length_lt tr.stackMap (rsort (tr.stackMap.map Prod.fst)) p.1
      hkmem hsome frames

/-- Witness for C5: the registered id 9 with empty input. -/
theorem extendHook_strict_growth_witness :
    tracesGet stateABC 9 = some ⟨9, [(9, [csC]), (5, [csB]), (1, [csA])], [], false⟩ ∧
    ([] : List CallSite).length < (extendHook stateABC 9 []).length :=
  ⟨by decide,
   extendHook_strict_growth stateABC 9 ⟨9, [(9, [csC]), (5, [csB]), (1, [csA])], [], false⟩
     [] (by decide) (by decide)⟩

/-- The walk loop body only ever appends to the visited array. -/
theorem foldl_walk_extends (g : Nat → List Nat) (fuel : Nat)
    (ihf : ∀ (n : Nat) (visited : List Nat),
      ∃ ext, walkNode g fuel n visited = visited ++ ext) :
    ∀ (l : List Nat) (visited : List Nat),
      ∃ ext, l.foldl
        (fun vis d => if d ∈ vis then vis else walkNode g fuel d (vis ++ [d]))
        visited = visited ++ ext := by
  intro l
  induction l with
  | nil => intro vis; exact ⟨[], by simp⟩
  | cons d rest ih =>
    intro vis
    simp only [List.foldl_cons]
    by_cases hd : d ∈ vis
    · simpa [hd] using ih vis
    · obtain ⟨e1, he1⟩ := ihf d (vis ++ [d])
      obtain ⟨e2, he2⟩ := ih (walkNode g fuel d (vis ++ [d]))
      refine ⟨[d] ++ e1 ++ e2, ?_⟩
      rw [if_neg hd, he2, he1]
      simp

/-- walkNode only ever appends to the visited array. -/
theorem walkNode_extends (g : Nat → List Nat) :
    ∀ (fuel n : Nat) (visited : List Nat),
      ∃ ext, walkNode g fuel n visited = visited ++ ext := by
  intro fuel
  induction fuel with
  | zero => intro n vis; exact ⟨[], by simp [walkNode]⟩
  | succ f ih =>
    intro n vis
    rw [walkNode]
    exact foldl_walk_extends g f ih (g n) vis

/-- The walk loop body preserves distinctness of the visited array. -/
theorem foldl_walk_nodup (g : Nat → List Nat) (fuel : Nat)
    (ihf : ∀ (n : Nat) (visited : List Nat),
      visited.Nodup → (walkNode g fuel n visited).Nodup) :
    ∀ (l : List Nat) (visited : List Nat), visited.Nodup →
      (l.foldl
        (fun vis d => if d ∈ vis then vis else walkNode g fuel d (vis ++ [d]))
        visited).Nodup := by
  intro l
  induction l with
  | nil => intro vis h; simpa using h
  | cons d rest ih =>
    intro vis h
    simp only [List.foldl_cons]
    by_cases hd : d ∈ vis
    · simpa [hd] using ih vis h
    · rw [if_neg hd]
      refine ih _ (ihf d (vis ++ [d]) ?_)
      simp [List.nodup_append, h, hd]

/-- Each node appears at most once in the walk result. -/
theorem walkNode_nodup (g : Nat → List Nat) :
    ∀ (fuel n : Nat) (visited : List Nat),
      visited.Nodup → (walkNode g fuel n visited).Nodup := by
  intro fuel
  induction fuel with
  | zero => intro n vis h; simpa [walkNode] using h
  | succ f ih =>
    intro n vis h
    rw [walkNode]
    exact foldl_walk_nodup g f ih (g n) vis h

/-- Every element the walk loop body adds is reachable from the node
whose descendant list is being iterated, within one more step than the
remaining fuel. -/
theorem foldl_walk_reach (g : Nat → List Nat) (fuel node : Nat)
    (ihf : ∀ (n : Nat) (visited : List Nat) (x : Nat),
      x ∈ walkNode g fuel n visited → x ∈ visited ∨ ReachWithin g n x fuel) :
    ∀ (l : List Nat) (visited : List Nat) (x : Nat), (∀ d ∈ l, d ∈ g node) →
      x ∈ l.foldl
        (fun vis d => if d ∈ vis then vis else walkNode g fuel d (vis ++ [d]))
        visited →
      x ∈ visited ∨ ReachWithin g node x (fuel + 1) := by
  intro l
  induction l with
  | nil => intro vis x _ hx; exact Or.inl hx
  | cons d rest ih =>
    intro vis x hsub hx
    simp only [List.foldl_cons] at hx
    by_cases hd : d ∈ vis
    · rw [if_pos hd] at hx
      exact ih vis x (fun e he => hsub e (List.mem_cons_of_mem d he)) hx
    · rw [if_neg hd] at hx
      have hdg : d ∈ g node := hsub d (List.mem_cons_self d rest)
      rcases ih (walkNode g fuel d (vis ++ [d])) x
          (fun e he => hsub e (List.mem_cons_of_mem d he)) hx with hin | hr
      · rcases ihf d (vis ++ [d]) x hin with hv | hrd
        · rcases List.mem_append.mp hv with h1 | h2
          · exact Or.inl h1
          · have hxd : x = d := by simpa using h2
            subst hxd
            exact Or.inr (ReachWithin.step node x x fuel hdg (ReachWithin.refl x fuel))
        · exact Or.inr (ReachWithin.step node d x fuel hdg hrd)
      · exact Or.inr hr

/-- Every element of the walk result was already visited or is reachable
within the fuel bound. -/
theorem walkNode_reach (g : Nat → List Nat) :
    ∀ (fuel n : Nat) (visited : List Nat) (x : Nat),
      x ∈ walkNode g fuel n visited → x ∈ visited ∨ ReachWithin g n x fuel := by
  intro fuel
  induction fuel with
  | zero => intro n vis x hx; rw [walkNode] at hx; exact Or.inl hx
  | succ f ih =>
    intro n vis x hx
    rw [walkNode] at hx
    exact foldl_walk_reach g f n ih (g n) vis x (fun d hd => hd) hx

/-- C8 counterexample: on an 11-edge chain the node at distance 11 from
the traversal root is visited (and hence contributes to the merge),
although its distance exceeds the depth cap of 10 — the guard `depth >
10` lets one extra level of descendants be pushed. -/
theorem walk_depth_cex :
    11 ∈ walkIds chainG 0 ∧ ¬ ReachWithin chainG 0 11 MAX_DESCENDANT_DEPTH_TRAVERSAL := by
  have hle : ∀ (k a b : Nat), ReachWithin chainG a b k → b ≤ a + k := by
    intro k a b h
    induction h with
    | refl a k => omega
    | step a b c k hb _ ih =>
      have hab : b = a + 1 := by
        by_cases ha : a < 11
        · simpa [chainG, ha] using hb
        · simp [chainG, ha] at hb
      omega
  refine ⟨by decide, fun h => ?_⟩
  have h11 := hle MAX_DESCENDANT_DEPTH_TRAVERSAL 0 11 h
  norm_num [MAX_DESCENDANT_DEPTH_TRAVERSAL] at h11

/-- C8 (amended): for every edge graph, including cyclic ones and chains
longer than the depth cap, the traversal is a total function that visits
each node at most once (explicit visited set), and every visited node —
hence every node contributing to the merge — lies within distance
cap + 1 = 11 of the traversal root (the depth guard fires only above the
cap, admitting one final level of pushes); nodes farther than 11 never
contribute. -/
theorem walk_bounded_nodup (g : Nat → List Nat) (root : Nat) :
    (walkIds g root).Nodup ∧
    ∀ x ∈ walkIds g root, ReachWithin g root x (MAX_DESCENDANT_DEPTH_TRAVERSAL + 1) := by
  constructor
  · exact walkNode_nodup g (MAX_DESCENDANT_DEPTH_TRAVERSAL + 1) root [root] (by simp)
  · intro x hx
    rcases walkNode_reach g (MAX_DESCENDANT_DEPTH_TRAVERSAL + 1) root [root] x hx with hm | hr
    · have hxr : x = root := by simpa using hm
      subst hxr
      exact ReachWithin.refl x (MAX_DESCENDANT_DEPTH_TRAVERSAL + 1)
    · exact hr

/-- Witness for C8 on the chain graph, at visited node 5. -/
theorem walk_bounded_nodup_witness :
    (walkIds chainG 0).Nodup ∧ ReachWithin chainG 0 5 (MAX_DESCENDANT_DEPTH_TRAVERSAL + 1) :=
  ⟨(walk_bounded_nodup chainG 0).1, (walk_bounded_nodup chainG 0).2 5 (by decide)⟩

/-- Deleting a key filters it out of the key list. -/
theorem mapDelete_keys {V : Type} (m : List (Nat × V)) (k : Nat) :
    (mapDelete m k).map Prod.fst = (m.map Prod.fst).filter (fun x => x != k) := by
  induction m with
  | nil => rfl
  | cons p rest ih =>
    simp only [mapDelete] at ih ⊢
    cases hp : (p.1 != k) <;> simp [List.filter_cons, hp, ih]

/-- Filtering one occurrence out of a distinct list shortens it by one. -/
theorem filter_ne_length (k : Nat) :
    ∀ l : List Nat, l.Nodup → k ∈ l →
      (l.filter (fun x => x != k)).length + 1 = l.length := by
  intro l
  induction l with
  | nil => intro _ hk; cases hk
  | cons a rest ih =>
    intro hnd hk
    rw [List.nodup_cons] at hnd
    rw [List.filter_cons]
    rcases List.mem_cons.mp hk with heq | hmem
    · subst heq
      have hrest : rest.filter (fun x => x != k) = rest :=
        List.filter_eq_self.mpr (fun x hx => by
          have hne : x ≠ k := fun h => hnd.1 (h ▸ hx)
          simpa using hne)
      simp [hrest]
    · have ha : (a != k) = true := by
        have hne : a ≠ k := fun h => hnd.1 (h ▸ hmem)
        simpa using hne
      rw [ha, if_pos rfl]
      have h2 := ih hnd.2 hmem
      simp only [List.length_cons]
      omega

/-- Deleting a present key from a map with distinct keys shortens it by
one. -/
theorem mapDelete_length {V : Type} (m : List (Nat × V)) (k : Nat)
    (hnd : (m.map Prod.fst).Nodup) (hk : k ∈ m.map Prod.fst) :
    (mapDelete m k).length + 1 = m.length := by
  have h1 : (mapDelete m k).length = ((m.map Prod.fst).filter (fun x => x != k)).length := by
    rw [← mapDelete_keys, List.length_map]
  rw [h1, filter_ne_length k (m.map Prod.fst) hnd hk, List.length_map]

/-- Membership in a cons, phrased on decided Booleans. -/
theorem decide_not_mem_cons (a k : Nat) (ks : List Nat) :
    decide (a ∉ k :: ks) = (decide (a ∉ ks) && (a != k)) := by
  by_cases h1 : a = k <;> by_cases h2 : a ∈ ks <;> simp [h1, h2]

/-- Excluding the keys `k :: ks` is excluding `ks` after deleting `k`. -/
theorem filter_out_cons (m : StackMap) (k : Nat) (ks : List Nat) :
    m.filter (fun p => decide (p.1 ∉ k :: ks)) =
      (mapDelete m k).filter (fun p => decide (p.1 ∉ ks)) := by
  rw [mapDelete, List.filter_filter]
  exact List.filter_congr (fun a _ => decide_not_mem_cons a.1 k ks)

/-- Filtering out a distinct set of present keys shortens the map by the
size of that set. -/
theorem filter_keys_out_length :
    ∀ (ks : List Nat) (m : StackMap), (m.map Prod.fst).Nodup → ks.Nodup →
      (∀ k ∈ ks, k ∈ m.map Prod.fst) →
      (m.filter (fun p => decide (p.1 ∉ ks))).length + ks.length = m.length := by
  intro ks
  induction ks with
  | nil => intro m _ _ _; simp
  | cons k rest ih =>
    intro m hnd hks hsub
    rw [List.nodup_cons] at hks
    have hkm : k ∈ m.map Prod.fst := hsub k (List.mem_cons_self k rest)
    have hnd2 : ((mapDelete m k).map Prod.fst).Nodup := by
      rw [mapDelete_keys]; exact hnd.filter _
    have hsub2 : ∀ k2 ∈ rest, k2 ∈ (mapDelete m k).map Prod.fst := by
      intro k2 hk2
      rw [mapDelete_keys, List.mem_filter]
      refine ⟨hsub k2 (List.mem_cons_of_mem k hk2), ?_⟩
      have : k2 ≠ k := fun h => hks.1 (h ▸ hk2)
      simpa using this
    have hlen := mapDelete_length m k hnd hkm
    have h2 := ih (mapDelete m k) hnd2 hks.2 hsub2
    rw [filter_out_cons]
    simp only [List.length_cons]
    omega

/-- The trim loop over the ascending key list removes exactly the first
`size - (MAX_STACKS_TO_JOIN - 1)` iterated keys (all iterated keys are
present exactly once). -/
theorem removeOldestLoop_filter :
    ∀ (ks : List Nat) (m : StackMap),
      (m.map Prod.fst).Nodup → ks.Nodup → (∀ k ∈ ks, k ∈ m.map Prod.fst) →
      removeOldestLoop ks m =
        m.filter (fun p =>
          decide (p.1 ∉ ks.take (m.length - (MAX_STACKS_TO_JOIN - 1)))) := by
  intro ks
  induction ks with
  | nil =>
    intro m _ _ _
    simp [removeOldestLoop]
  | cons k rest ih =>
    intro m hnd hks hsub
    rw [List.nodup_cons] at hks
    rw [removeOldestLoop]
    by_cases hlt : m.length < MAX_STACKS_TO_JOIN
    · rw [if_pos hlt]
      have hz : m.length - (MAX_STACKS_TO_JOIN - 1) = 0 := by
        simp only [MAX_STACKS_TO_JOIN] at hlt ⊢
        omega
      rw [hz]
      simp
    · rw [if_neg hlt]
      have hkm : k ∈ m.map Prod.fst := hsub k (List.mem_cons_self k rest)
      have hnd2 : ((mapDelete m k).map Prod.fst).Nodup := by
        rw [mapDelete_keys]; exact hnd.filter _
      have hsub2 : ∀ k2 ∈ rest, k2 ∈ (mapDelete m k).map Prod.fst := by
        intro k2 hk2
        rw [mapDelete_keys, List.mem_filter]
        refine ⟨hsub k2 (List.mem_cons_of_mem k hk2), ?_⟩
        have : k2 ≠ k := fun h => hks.1 (h ▸ hk2)
        simpa using this
      have hlen := mapDelete_length m k hnd hkm
      have hsucc : m.length - (MAX_STACKS_TO_JOIN - 1) =
          ((mapDelete m k).length - (MAX_STACKS_TO_JOIN - 1)) + 1 := by
        simp only [MAX_STACKS_TO_JOIN] at hlt ⊢
        omega
      rw [ih (mapDelete m k) hnd2 hks.2 hsub2, hsucc, List.take_succ_cons,
        filter_out_cons]

/-- Position of an element of a strictly sorted list, measured by how
many elements exceed it: the element lies outside the first `n` entries
iff fewer than `length - n` elements exceed it. -/
theorem sorted_take_countP :
    ∀ (l : List Nat) (n x : Nat), l.Sorted (· < ·) → x ∈ l →
      (x ∉ l.take n ↔ l.countP (fun k => decide (x < k)) < l.length - n) := by
  intro l
  induction l with
  | nil => intro n x _ hx; cases hx
  | cons a rest ih =>
    intro n x hs hx
    rw [List.sorted_cons] at hs
    cases n with
    | zero =>
      simp only [List.take_zero, List.not_mem_nil, Nat.sub_zero, not_false_iff, true_iff]
      have hle : (a :: rest).countP (fun k => decide (x < k)) ≤ (a :: rest).length :=
        List.countP_le_length (fun k => decide (x < k))
      have hne : (a :: rest).countP (fun k => decide (x < k)) ≠ (a :: rest).length := by
        intro he
        have hall := List.countP_eq_length.mp he x hx
        simp at hall
      omega
    | succ n =>
      rw [List.take_succ_cons]
      rcases List.mem_cons.mp hx with heq | hmem
      · subst heq
        simp only [List.mem_cons, not_or]
        have hcnt : (x :: rest).countP (fun k => decide (x < k)) = rest.length := by
          rw [List.countP_cons]
          have hall : rest.countP (fun k => decide (x < k)) = rest.length :=
            List.countP_eq_length.mpr (fun b hb => by simpa using hs.1 b hb)
          simp [hall]
        rw [hcnt]
        simp only [List.length_cons]
        constructor
        · intro h
          exact (h.1 (by trivial)).elim
        · intro h
          exact absurd h (by omega)
      · have hax : a < x := hs.1 x hmem
        have hxa : x ≠ a := fun h => by omega
        have hcnt : (a :: rest).countP (fun k => decide (x < k)) =
            rest.countP (fun k => decide (x < k)) := by
          rw [List.countP_cons]
          have : ¬ x < a := by omega
          simp [this]
        rw [hcnt]
        simp only [List.mem_cons, not_or, List.length_cons]
        rw [Nat.succ_sub_succ]
        constructor
        · intro h
          exact (ih n x hs.2 hmem).mp h.2
        · intro h
          exact ⟨hxa, (ih n x hs.2 hmem).mpr h⟩

/-- C7: the Bound Enforcer leaves maps under the join cap unchanged and
otherwise repeatedly removes the lowest-id entry until the size is one
below the cap: the survivors are exactly the entries with fewer than
cap - 1 = 49 larger ids, i.e. the 49 highest ids. -/
theorem removeOldest_spec (m : StackMap) (hnd : (m.map Prod.fst).Nodup) :
    (m.length < MAX_STACKS_TO_JOIN → removeOldestFromStackMap m = m) ∧
    (MAX_STACKS_TO_JOIN ≤ m.length →
      (removeOldestFromStackMap m).length = MAX_STACKS_TO_JOIN - 1 ∧
      removeOldestFromStackMap m =
        m.filter (fun p =>
          decide ((m.map Prod.fst).countP (fun k => decide (p.1 < k)) <
            MAX_STACKS_TO_JOIN - 1))) := by
  constructor
  · intro hlt
    rw [removeOldestFromStackMap, if_pos hlt]
  · intro hge
    have hperm := List.perm_insertionSort (fun a b : Nat => a ≤ b) (m.map Prod.fst)
    have hsnd : (sort (m.map Prod.fst)).Nodup := by
      rw [sort]; exact hperm.nodup_iff.mpr hnd
    have hssub : ∀ k ∈ sort (m.map Prod.fst), k ∈ m.map Prod.fst := by
      intro k hk
      rw [sort] at hk
      exact hperm.mem_iff.mp hk
    have hnlt : ¬ m.length < MAX_STACKS_TO_JOIN := by omega
    have hrep : removeOldestFromStackMap m =
        m.filter (fun p =>
          decide (p.1 ∉ (sort (m.map Prod.fst)).take
            (m.length - (MAX_STACKS_TO_JOIN - 1)))) := by
      rw [removeOldestFromStackMap, if_neg hnlt]
      exact removeOldestLoop_filter (sort (m.map Prod.fst)) m hnd hsnd hssub
    have hslen : (sort (m.map Prod.fst)).length = m.length := by
      rw [sort, hperm.length_eq, List.length_map]
    have hsorted : (sort (m.map Prod.fst)).Sorted (· < ·) := by
      have hs1 : (sort (m.map Prod.fst)).Sorted (· ≤ ·) := by
        rw [sort]
        exact List.sorted_insertionSort (fun a b : Nat => a ≤ b) (m.map Prod.fst)
      exact hs1.lt_of_le hsnd
    constructor
    · rw [hrep]
      have htsub : ∀ k ∈ (sort (m.map Prod.fst)).take (m.length - (MAX_STACKS_TO_JOIN - 1)),
          k ∈ m.map Prod.fst :=
        fun k hk => hssub k (List.take_subset _ _ hk)
      have htnd : ((sort (m.map Prod.fst)).take
          (m.length - (MAX_STACKS_TO_JOIN - 1))).Nodup :=
        (List.take_sublist _ _).nodup hsnd
      have hcnt := filter_keys_out_length
        ((sort (m.map Prod.fst)).take (m.length - (MAX_STACKS_TO_JOIN - 1))) m hnd htnd htsub
      have htlen : ((sort (m.map Prod.fst)).take
          (m.length - (MAX_STACKS_TO_JOIN - 1))).length =
          m.length - (MAX_STACKS_TO_JOIN - 1) := by
        rw [List.length_take, hslen]
        simp only [MAX_STACKS_TO_JOIN] at hge ⊢
        omega
      rw [htlen] at hcnt
      simp only [MAX_STACKS_TO_JOIN] at hge hcnt ⊢
      omega
    · rw [hrep]
      apply List.filter_congr
      intro p hp
      have hpk : p.1 ∈ m.map Prod.fst := List.mem_map_of_mem Prod.fst hp
      have hps : p.1 ∈ sort (m.map Prod.fst) := by
        rw [sort]; exact hperm.mem_iff.mpr hpk
      have hiff := sorted_take_countP (sort (m.map Prod.fst))
        (m.length - (MAX_STACKS_TO_JOIN - 1)) p.1 hsorted hps
      have hcp : (sort (m.map Prod.fst)).countP (fun k => decide (p.1 < k)) =
          (m.map Prod.fst).countP (fun k => decide (p.1 < k)) := by
        rw [sort]; exact hperm.countP_eq _
      rw [hcp, hslen] at hiff
      have harith : m.length - (m.length - (MAX_STACKS_TO_JOIN - 1)) =
          MAX_STACKS_TO_JOIN - 1 := by
        simp only [MAX_STACKS_TO_JOIN] at hge ⊢
        omega
      rw [harith] at hiff
      exact decide_eq_decide.mpr hiff

/-- Witness for C7 on a small two-entry map (below the cap, left
unchanged). -/
theorem removeOldest_spec_witness :
    (([(1, []), (2, [])] : StackMap).map Prod.fst).Nodup ∧
    removeOldestFromStackMap [(1, []), (2, [])] = [(1, []), (2, [])] :=
  ⟨by decide, (removeOldest_spec [(1, []), (2, [])] (by decide)).1 (by decide)⟩

/-- Unfolding lemma: reading a cons cell checks the head key first. -/
theorem mapGet_cons {V : Type} (p : Nat × V) (rest : List (Nat × V)) (k : Nat) :
    mapGet (p :: rest) k = if (p.1 == k) = true then some p.2 else mapGet rest k := by
  rw [mapGet, List.find?_cons]
  by_cases h : (p.1 == k) = true <;> simp [h, mapGet]

/-- Reading a modified map: the modified key's value is mapped, every
other key is untouched. -/
theorem mapGet_mapModify {V : Type} (k : Nat) (f : V → V) :
    ∀ (m : List (Nat × V)) (k2 : Nat),
      mapGet (mapModify m k f) k2 =
        if k2 = k then (mapGet m k2).map f else mapGet m k2 := by
  intro m
  induction m with
  | nil => intro k2; by_cases h : k2 = k <;> simp [mapGet, mapModify, h]
  | cons p rest ih =>
    intro k2
    have hkey : mapModify (p :: rest) k f =
        (p.1, if (p.1 == k) = true then f p.2 else p.2) :: mapModify rest k f := by
      simp only [mapModify, List.map_cons]
      by_cases hpk : (p.1 == k) = true <;> simp [hpk]
    rw [hkey]
    by_cases hq : (p.1 == k2) = true
    · by_cases hk2 : k2 = k
      · subst hk2
        simp [mapGet_cons, hq]
      · have h1 : p.1 = k2 := by simpa using hq
        have hpk : (p.1 == k) = false := by
          have h2 : p.1 ≠ k := fun h => hk2 (h1 ▸ h)
          simpa using h2
        simp [mapGet_cons, hq, hpk, hk2]
    · have hqf : (p.1 == k2) = false := by simpa using hq
      simp [mapGet_cons, hqf, ih k2]

/-- A heap cell not in the iterated sub-descendant list is untouched by
the propagation fold. -/
theorem foldl_mergeWalkStep_notmem (a : Nat) :
    ∀ (subs : List Nat) (h : Heap) (s : Nat), s ∉ subs →
      mapGet (subs.foldl (mergeWalkStep a) h) s = mapGet h s := by
  intro subs
  induction subs with
  | nil => intro h s _; rfl
  | cons s0 rest ih =>
    intro h s hs
    rw [List.mem_cons, not_or] at hs
    rw [List.foldl_cons, ih (mergeWalkStep a h s0) s hs.2]
    simp [mergeWalkStep, mapGet_mapModify, hs.1]

/-- Propagation over distinct sub-descendants not containing the
ancestor updates each listed cell once: its stack map is merged with the
ancestor's map and then trimmed. -/
theorem foldl_mergeWalkStep_mem (a : Nat) :
    ∀ (subs : List Nat) (h : Heap), a ∉ subs → subs.Nodup →
      ∀ s ∈ subs,
        mapGet (subs.foldl (mergeWalkStep a) h) s =
          (mapGet h s).map (fun ts =>
            { ts with stackMap :=
                removeOldestFromStackMap (mergeIntoStackMap ts.stackMap
                  (((mapGet h a).map Trace.stackMap).getD [])) }) := by
  intro subs
  induction subs with
  | nil => intro h _ _ s hs; cases hs
  | cons s0 rest ih =>
    intro h ha hnd s hs
    rw [List.mem_cons, not_or] at ha
    rw [List.nodup_cons] at hnd
    rw [List.foldl_cons]
    rcases List.mem_cons.mp hs with heq | hmem
    · subst heq
      rw [foldl_mergeWalkStep_notmem a rest (mergeWalkStep a h s) s hnd.1]
      cases hg : mapGet h s with
      | none => simp [mergeWalkStep, mapGet_mapModify, hg]
      | some ts => simp [mergeWalkStep, mapGet_mapModify, hg]
    · have hss0 : s ≠ s0 := fun h2 => hnd.1 (h2 ▸ hmem)
      rw [ih (mergeWalkStep a h s0) ha.2 hnd.2 s hmem]
      have h1 : mapGet (mergeWalkStep a h s0) s = mapGet h s := by
        simp [mergeWalkStep, mapGet_mapModify, hss0]
      have h2 : mapGet (mergeWalkStep a h s0) a = mapGet h a := by
        simp [mergeWalkStep, mapGet_mapModify, ha.1]
      rw [h1, h2]

/-- C1 counterexample: recordEdge(1, 2) on fresh traces 1 and 2 leaves
the ancestor's accumulated map without any entry for the reachable
descendant 2, while the descendant's map has gained the ancestor's entry
for id 1 — the ancestor's map is the merge source, not the merge
destination. -/
theorem recordDescendant_direction_cex :
    (mapGet (recordDescendant heapW 1 2) 1).map (fun t => mapGet t.stackMap 2) =
      some none ∧
    (mapGet (recordDescendant heapW 1 2) 2).map (fun t => mapGet t.stackMap 1) =
      some (some [csA]) := by decide

/-- C1 (amended): on a successful (non-guard-triggered) edge insertion
recordEdge(ancestor, descendant), for every node reachable from the
descendant within the depth bound (the walk, which does not revisit the
ancestor here), the ancestor's accumulated map is merged into that
reachable node's accumulated map (union keyed by node id, a later write
overwriting an earlier one), and the Bound Enforcer trim is then invoked
on the reachable node's map — the reachable node's map, not the
ancestor's, is both the merge destination and the trim target; the
ancestor's own map is unchanged. -/
theorem recordDescendant_propagates (heap : Heap) (a d : Nat) (t : Trace)
    (hget : mapGet heap a = some t)
    (hdis : t.disabled = false)
    (hdup : t.descendants.contains d = false)
    (hcap : t.descendants.length + 1 < MAX_DESCENDANT_COUNT)
    (hna : a ∉ walkIds (heapGraph (mapModify heap a (fun tr => pushDescendant tr d))) d) :
    mapGet (recordDescendant heap a d) a = some (pushDescendant t d) ∧
    ∀ s ∈ walkIds (heapGraph (mapModify heap a (fun tr => pushDescendant tr d))) d,
      mapGet (recordDescendant heap a d) s =
        (mapGet heap s).map (fun ts =>
          { ts with stackMap :=
              removeOldestFromStackMap (mergeIntoStackMap ts.stackMap t.stackMap) }) := by
  have hnodup : (walkIds (heapGraph (mapModify heap a (fun tr => pushDescendant tr d))) d).Nodup :=
    walkNode_nodup _ (MAX_DESCENDANT_DEPTH_TRAVERSAL + 1) d [d] (by simp)
  have hrw : recordDescendant heap a d =
      (walkIds (heapGraph (mapModify heap a (fun tr => pushDescendant tr d))) d).foldl
        (mergeWalkStep a) (mapModify heap a (fun tr => pushDescendant tr d)) := by
    simp only [recordDescendant, hget, hdis, hdup, Bool.or_self, Bool.false_eq_true,
      if_false]
    rw [if_neg (by omega)]
  have hga : mapGet (mapModify heap a (fun tr => pushDescendant tr d)) a =
      some (pushDescendant t d) := by
    rw [mapGet_mapModify, if_pos rfl, hget]
    rfl
  constructor
  · rw [hrw, foldl_mergeWalkStep_notmem a _ _ a hna, hga]
  · intro s hs
    have hsa : s ≠ a := by
      intro h2
      rw [h2] at hs
      exact hna hs
    rw [hrw, foldl_mergeWalkStep_mem a _ _ hna hnodup s hs, hga]
    rw [mapGet_mapModify, if_neg hsa]
    rfl

/-- Witness for C1: the two-trace heap, recording trace 2 under trace 1. -/
theorem recordDescendant_propagates_witness :
    mapGet (recordDescendant heapW 1 2) 1 =
      some (pushDescendant ⟨1, [(1, [csA])], [], false⟩ 2) ∧
    ∀ s ∈ walkIds (heapGraph (mapModify heapW 1
        (fun tr => pushDescendant tr 2))) 2,
      mapGet (recordDescendant heapW 1 2) s =
        (mapGet heapW s).map (fun ts =>
          { ts with stackMap :=
              removeOldestFromStackMap (mergeIntoStackMap ts.stackMap
                (⟨1, [(1, [csA])], [], false⟩ : Trace).stackMap) }) :=
  recordDescendant_propagates heapW 1 2 ⟨1, [(1, [csA])], [], false⟩
    (by decide) (by decide) (by decide) (by decide) (by decide)

/-- Every entry of a modified map comes from an entry of the original
map, modified when its key matches. -/
theorem mem_mapModify {V : Type} (m : List (Nat × V)) (k : Nat) (f : V → V)
    (q : Nat × V) (hq : q ∈ mapModify m k f) :
    ∃ p ∈ m, q = if (p.1 == k) = true then (p.1, f p.2) else p := by
  rw [mapModify] at hq
  obtain ⟨p, hp, he⟩ := List.mem_map.mp hq
  exact ⟨p, hp, he.symm⟩

/-- In a map with distinct keys, every entry is found by its own key. -/
theorem mapGet_of_mem_nodup {V : Type} :
    ∀ (m : List (Nat × V)), (m.map Prod.fst).Nodup →
      ∀ p ∈ m, mapGet m p.1 = some p.2 := by
  intro m
  induction m with
  | nil => intro _ p hp; cases hp
  | cons q rest ih =>
    intro hnd p hp
    rw [List.map_cons, List.nodup_cons] at hnd
    rcases List.mem_cons.mp hp with heq | hmem
    · subst heq
      simp [mapGet_cons]
    · have hne : q.1 ≠ p.1 := by
        intro h
        exact hnd.1 (h ▸ List.mem_map_of_mem Prod.fst hmem)
      rw [mapGet_cons, if_neg (by simpa using hne)]
      exact ih hnd.2 p hmem

/-- Modifying a value does not change the key list. -/
theorem mapModify_keys {V : Type} (m : List (Nat × V)) (k : Nat) (f : V → V) :
    (mapModify m k f).map Prod.fst = m.map Prod.fst := by
  induction m with
  | nil => rfl
  | cons p rest ih =>
    have hh : (if (p.1 == k) = true then (p.1, f p.2) else p).1 = p.1 := by
      by_cases h : (p.1 == k) = true <;> simp [h]
    simp only [mapModify, List.map_cons] at ih ⊢
    rw [hh, ih]

/-- One propagation step does not change the heap's key list. -/
theorem mergeWalkStep_keys (a s0 : Nat) (h : Heap) :
    (mergeWalkStep a h s0).map Prod.fst = h.map Prod.fst := by
  simp only [mergeWalkStep]
  rw [mapModify_keys, mapModify_keys]

/-- The propagation fold does not change the heap's key list. -/
theorem foldl_mergeWalkStep_keys (a : Nat) :
    ∀ (subs : List Nat) (h : Heap),
      (subs.foldl (mergeWalkStep a) h).map Prod.fst = h.map Prod.fst := by
  intro subs
  induction subs with
  | nil => intro h; rfl
  | cons s0 rest ih =>
    intro h
    rw [List.foldl_cons, ih, mergeWalkStep_keys]

/-- recordDescendant does not change the heap's key list. -/
theorem recordDescendant_keys (heap : Heap) (a d : Nat) :
    (recordDescendant heap a d).map Prod.fst = heap.map Prod.fst := by
  cases hg : mapGet heap a with
  | none => simp only [recordDescendant, hg]
  | some t =>
    simp only [recordDescendant, hg]
    by_cases h1 : (t.disabled || t.descendants.contains d) = true
    · rw [if_pos h1]
    · rw [if_neg h1]
      by_cases h2 : MAX_DESCENDANT_COUNT ≤ t.descendants.length + 1
      · rw [if_pos h2, mapModify_keys]
      · rw [if_neg h2, foldl_mergeWalkStep_keys, mapModify_keys]

/-- One propagation step only rewrites stack maps: every entry of the
result keeps the key, descendants and disabled flag of an original
entry. -/
theorem mergeWalkStep_entries (a s0 : Nat) (h : Heap) (q : Nat × Trace)
    (hq : q ∈ mergeWalkStep a h s0) :
    ∃ p ∈ h, q.1 = p.1 ∧ q.2.descendants = p.2.descendants ∧
      q.2.disabled = p.2.disabled := by
  simp only [mergeWalkStep] at hq
  obtain ⟨p1, hp1, he1⟩ := mem_mapModify _ _ _ q hq
  obtain ⟨p, hp, he⟩ := mem_mapModify _ _ _ p1 hp1
  have hs1 : q.1 = p1.1 ∧ q.2.descendants = p1.2.descendants ∧
      q.2.disabled = p1.2.disabled := by
    by_cases h1 : (p1.1 == s0) = true
    · rw [if_pos h1] at he1
      subst he1
      exact ⟨rfl, rfl, rfl⟩
    · rw [if_neg h1] at he1
      subst he1
      exact ⟨rfl, rfl, rfl⟩
  have hs2 : p1.1 = p.1 ∧ p1.2.descendants = p.2.descendants ∧
      p1.2.disabled = p.2.disabled := by
    by_cases h1 : (p.1 == s0) = true
    · rw [if_pos h1] at he
      subst he
      exact ⟨rfl, rfl, rfl⟩
    · rw [if_neg h1] at he
      subst he
      exact ⟨rfl, rfl, rfl⟩
  exact ⟨p, hp, hs1.1.trans hs2.1, hs1.2.1.trans hs2.2.1, hs1.2.2.trans hs2.2.2⟩

/-- The propagation fold only rewrites stack maps (entry version). -/
theorem foldl_mergeWalkStep_entries (a : Nat) :
    ∀ (subs : List Nat) (h : Heap) (q : Nat × Trace),
      q ∈ subs.foldl (mergeWalkStep a) h →
      ∃ p ∈ h, q.1 = p.1 ∧ q.2.descendants = p.2.descendants ∧
        q.2.disabled = p.2.disabled := by
  intro subs
  induction subs with
  | nil => intro h q hq; exact ⟨q, hq, rfl, rfl, rfl⟩
  | cons s0 rest ih =>
    intro h q hq
    rw [List.foldl_cons] at hq
    obtain ⟨p1, hp1, e1, e2, e3⟩ := ih (mergeWalkStep a h s0) q hq
    obtain ⟨p, hp, f1, f2, f3⟩ := mergeWalkStep_entries a s0 h p1 hp1
    exact ⟨p, hp, e1.trans f1, e2.trans f2, e3.trans f3⟩

/-- The propagation fold only rewrites stack maps (lookup version). -/
theorem foldl_mergeWalkStep_skeleton (a : Nat) :
    ∀ (subs : List Nat) (h : Heap) (id : Nat),
      (mapGet (subs.foldl (mergeWalkStep a) h) id).map
          (fun t => (t.descendants, t.disabled)) =
        (mapGet h id).map (fun t => (t.descendants, t.disabled)) := by
  intro subs
  induction subs with
  | nil => intro h id; rfl
  | cons s0 rest ih =>
    intro h id
    rw [List.foldl_cons, ih]
    by_cases hid : id = s0
    · subst hid
      cases hg : mapGet h id with
      | none => simp [mergeWalkStep, mapGet_mapModify, hg]
      | some ts => simp [mergeWalkStep, mapGet_mapModify, hg]
    · simp [mergeWalkStep, mapGet_mapModify, hid]

/-- recordDescendant changes the edge list and disabled flag of no node
other than the ancestor. -/
theorem recordDescendant_skeleton_ne (heap : Heap) (a d id : Nat) (hne : id ≠ a) :
    (mapGet (recordDescendant heap a d) id).map (fun t => (t.descendants, t.disabled)) =
      (mapGet heap id).map (fun t => (t.descendants, t.disabled)) := by
  cases hg : mapGet heap a with
  | none => simp only [recordDescendant, hg]
  | some t =>
    simp only [recordDescendant, hg]
    by_cases h1 : (t.disabled || t.descendants.contains d) = true
    · rw [if_pos h1]
    · rw [if_neg h1]
      by_cases h2 : MAX_DESCENDANT_COUNT ≤ t.descendants.length + 1
      · rw [if_pos h2, mapGet_mapModify, if_neg hne]
      · rw [if_neg h2, foldl_mergeWalkStep_skeleton, mapGet_mapModify, if_neg hne]

/-- The ancestor's edge list and disabled flag after recordDescendant:
unchanged under the guard, wiped and disabled at the cap, extended by
the new edge otherwise. -/
theorem recordDescendant_skeleton_self (heap : Heap) (a d : Nat) (t : Trace)
    (hget : mapGet heap a = some t) :
    (mapGet (recordDescendant heap a d) a).map (fun tr => (tr.descendants, tr.disabled)) =
      if (t.disabled || t.descendants.contains d) = true then
        some (t.descendants, t.disabled)
      else if MAX_DESCENDANT_COUNT ≤ t.descendants.length + 1 then some ([], true)
      else some (t.descendants ++ [d], t.disabled) := by
  simp only [recordDescendant, hget]
  by_cases h1 : (t.disabled || t.descendants.contains d) = true
  · rw [if_pos h1, if_pos h1, hget]
    rfl
  · rw [if_neg h1, if_neg h1]
    by_cases h2 : MAX_DESCENDANT_COUNT ≤ t.descendants.length + 1
    · rw [if_pos h2, if_pos h2, mapGet_mapModify, if_pos rfl, hget]
      rfl
    · rw [if_neg h2, if_neg h2, foldl_mergeWalkStep_skeleton, mapGet_mapModify,
        if_pos rfl, hget]
      rfl

/-- Reading the invariant for a node found in a heap with distinct keys. -/
theorem fanoutInv_get (heap : Heap) (hinv : fanoutInv heap) (id : Nat) (t : Trace)
    (hget : mapGet heap id = some t) :
    (t.disabled = true → t.descendants = []) ∧
      t.descendants.length < MAX_DESCENDANT_COUNT := by
  rw [mapGet] at hget
  cases hf : heap.find? (fun p => p.1 == id) with
  | none => rw [hf] at hget; cases hget
  | some p =>
    rw [hf] at hget
    have hmem := List.mem_of_find?_eq_some hf
    have hpt : p.2 = t := by simpa using hget
    rw [← hpt]
    exact hinv p hmem

/-- One recordDescendant call preserves the fan-out invariant. -/
theorem recordDescendant_inv (heap : Heap) (a d : Nat)
    (hkeys : (heap.map Prod.fst).Nodup) (hinv : fanoutInv heap) :
    fanoutInv (recordDescendant heap a d) := by
  cases hg : mapGet heap a with
  | none => simp only [recordDescendant, hg]; exact hinv
  | some t =>
    simp only [recordDescendant, hg]
    by_cases h1 : (t.disabled || t.descendants.contains d) = true
    · rw [if_pos h1]; exact hinv
    · rw [if_neg h1]
      have hdis : t.disabled = false := by
        cases hd : t.disabled
        · rfl
        · rw [hd] at h1; simp at h1
      by_cases h2 : MAX_DESCENDANT_COUNT ≤ t.descendants.length + 1
      · rw [if_pos h2]
        intro q hq
        obtain ⟨p, hp, he⟩ := mem_mapModify heap a _ q hq
        by_cases hpk : (p.1 == a) = true
        · rw [if_pos hpk] at he
          subst he
          exact ⟨fun _ => rfl, by simp [MAX_DESCENDANT_COUNT]⟩
        · rw [if_neg hpk] at he
          subst he
          exact hinv _ hp
      · rw [if_neg h2]
        intro q hq
        obtain ⟨p1, hp1, e1, e2, e3⟩ := foldl_mergeWalkStep_entries a _ _ q hq
        obtain ⟨p, hp, he⟩ := mem_mapModify heap a _ p1 hp1
        by_cases hpk : (p.1 == a) = true
        · rw [if_pos hpk] at he
          have hpa : p.1 = a := by simpa using hpk
          have hpt : p.2 = t := by
            have ha := mapGet_of_mem_nodup heap hkeys p hp
            rw [hpa, hg] at ha
            exact (Option.some.inj ha).symm
          rw [he] at e2 e3
          simp only [pushDescendant] at e2 e3
          rw [hpt] at e2 e3
          constructor
          · intro hq2
            rw [e3, hdis] at hq2
            cases hq2
          · rw [e2]
            simp only [List.length_append, List.length_cons, List.length_nil]
            omega
        · rw [if_neg hpk] at he
          rw [he] at e2 e3
          refine ⟨fun hq2 => ?_, ?_⟩
          · rw [e2]
            exact (hinv p hp).1 (e3 ▸ hq2)
          · rw [e2]
            exact (hinv p hp).2

/-- A sequence of recordDescendant calls does not change the key list. -/
theorem applyOps_keys :
    ∀ (ops : List (Nat × Nat)) (heap : Heap),
      (applyOps heap ops).map Prod.fst = heap.map Prod.fst := by
  intro ops
  induction ops with
  | nil => intro heap; rfl
  | cons op rest ih =>
    intro heap
    rw [applyOps, List.foldl_cons]
    have h2 := ih (recordDescendant heap op.1 op.2)
    rw [applyOps] at h2
    rw [h2, recordDescendant_keys]

/-- A sequence of recordDescendant calls preserves the fan-out
invariant. -/
theorem applyOps_inv :
    ∀ (ops : List (Nat × Nat)) (heap : Heap), (heap.map Prod.fst).Nodup →
      fanoutInv heap → fanoutInv (applyOps heap ops) := by
  intro ops
  induction ops with
  | nil => intro heap _ hinv; exact hinv
  | cons op rest ih =>
    intro heap hkeys hinv
    rw [applyOps, List.foldl_cons]
    have hkeys2 : ((recordDescendant heap op.1 op.2).map Prod.fst).Nodup := by
      rw [recordDescendant_keys]; exact hkeys
    have h2 := ih (recordDescendant heap op.1 op.2) hkeys2
      (recordDescendant_inv heap op.1 op.2 hkeys hinv)
    rw [applyOps] at h2
    exact h2

/-- One recordDescendant call keeps a disabled node disabled, with its
edge list untouched. -/
theorem recordDescendant_disabled_step (heap : Heap) (a d id : Nat) (t : Trace)
    (hget : mapGet heap id = some t) (hdis : t.disabled = true) :
    ∃ t2, mapGet (recordDescendant heap a d) id = some t2 ∧ t2.disabled = true ∧
      t2.descendants = t.descendants := by
  by_cases hia : id = a
  · subst hia
    simp only [recordDescendant, hget, hdis, Bool.true_or]
    rw [if_pos trivial]
    exact ⟨t, hget, hdis, rfl⟩
  · have hsk := recordDescendant_skeleton_ne heap a d id hia
    rw [hget] at hsk
    cases hg2 : mapGet (recordDescendant heap a d) id with
    | none => rw [hg2] at hsk; simp at hsk
    | some t2 =>
      rw [hg2] at hsk
      simp only [Option.map_some'] at hsk
      have hpair := Option.some.inj hsk
      have h1 : t2.descendants = t.descendants := congrArg Prod.fst hpair
      have h2 : t2.disabled = t.disabled := congrArg Prod.snd hpair
      exact ⟨t2, rfl, h2.trans hdis, h1⟩

/-- A disabled node stays disabled with the same (empty) edge list
through any sequence of edge insertions. -/
theorem applyOps_disabled_persists :
    ∀ (ops : List (Nat × Nat)) (heap : Heap) (id : Nat) (t : Trace),
      mapGet heap id = some t → t.disabled = true →
      ∃ t2, mapGet (applyOps heap ops) id = some t2 ∧ t2.disabled = true ∧
        t2.descendants = t.descendants := by
  intro ops
  induction ops with
  | nil => intro heap id t hget hdis; exact ⟨t, hget, hdis, rfl⟩
  | cons op rest ih =>
    intro heap id t hget hdis
    obtain ⟨t1, hg1, hd1, hdesc1⟩ :=
      recordDescendant_disabled_step heap op.1 op.2 id t hget hdis
    obtain ⟨t2, hg2, hd2, hdesc2⟩ := ih (recordDescendant heap op.1 op.2) id t1 hg1 hd1
    refine ⟨t2, ?_, hd2, hdesc2.trans hdesc1⟩
    rw [applyOps, List.foldl_cons]
    rw [applyOps] at hg2
    exact hg2

/-- C4 counterexample: after the ninth insertion node 100 is enabled
with 9 edges, but the tenth insertion — which would not exceed a cap of
10 held edges — wipes the edge set and disables the node: the guard
fires when the count reaches 10, so a node can never hold 10 edges. -/
theorem fanout_cap_cex :
    (mapGet stateFan9.heap 100).map (fun t => (t.disabled, t.descendants.length)) =
      some (false, 9) ∧
    (mapGet stateFan10.heap 100).map (fun t => (t.disabled, t.descendants.length)) =
      some (true, 0) := by decide

/-- C4 (amended): for every heap with distinct ids satisfying the
fan-out invariant and every sequence of edge insertions, the invariant
is preserved: a node's edge set is discarded and the node disabled
exactly when an insertion makes the count reach the cap of 10 (so a node
holding up to 9 edges is still enabled, and no node ever holds 10);
once disabled, the node permanently has zero edges and every further
insertion on it is a no-op. -/
theorem fanout_guard (heap : Heap) (ops : List (Nat × Nat))
    (hkeys : (heap.map Prod.fst).Nodup) (hinv : fanoutInv heap) :
    fanoutInv (applyOps heap ops) ∧
    (∀ id t, mapGet heap id = some t → t.disabled = true →
      ∃ t2, mapGet (applyOps heap ops) id = some t2 ∧ t2.disabled = true ∧
        t2.descendants = []) ∧
    (∀ a2 d2 t, mapGet heap a2 = some t → t.disabled = false →
      t.descendants.contains d2 = false →
      ∃ t2, mapGet (recordDescendant heap a2 d2) a2 = some t2 ∧
        (t2.disabled = true ↔ MAX_DESCENDANT_COUNT ≤ t.descendants.length + 1) ∧
        (t2.disabled = true → t2.descendants = []) ∧
        (t2.disabled = false → t2.descendants = t.descendants ++ [d2])) := by
  refine ⟨applyOps_inv ops heap hkeys hinv, ?_, ?_⟩
  · intro id t hget hdis
    obtain ⟨t2, hg2, hd2, hdesc⟩ := applyOps_disabled_persists ops heap id t hget hdis
    have hempty : t.descendants = [] := (fanoutInv_get heap hinv id t hget).1 hdis
    exact ⟨t2, hg2, hd2, hdesc.trans hempty⟩
  · intro a2 d2 t hget hdis hdup
    have hsk := recordDescendant_skeleton_self heap a2 d2 t hget
    have hguard : ¬ ((t.disabled || t.descendants.contains d2) = true) := by
      rw [hdis, hdup]
      simp
    rw [if_neg hguard] at hsk
    by_cases h2 : MAX_DESCENDANT_COUNT ≤ t.descendants.length + 1
    · rw [if_pos h2] at hsk
      cases hg2 : mapGet (recordDescendant heap a2 d2) a2 with
      | none => rw [hg2] at hsk; simp at hsk
      | some t2 =>
        rw [hg2] at hsk
        simp only [Option.map_some'] at hsk
        have hpair := Option.some.inj hsk
        have hd : t2.disabled = true := congrArg Prod.snd hpair
        have hds : t2.descendants = [] := congrArg Prod.fst hpair
        refine ⟨t2, rfl, ⟨fun _ => h2, fun _ => hd⟩, fun _ => hds, fun hfalse => ?_⟩
        rw [hd] at hfalse
        cases hfalse
    · rw [if_neg h2] at hsk
      cases hg2 : mapGet (recordDescendant heap a2 d2) a2 with
      | none => rw [hg2] at hsk; simp at hsk
      | some t2 =>
        rw [hg2] at hsk
        simp only [Option.map_some'] at hsk
        have hpair := Option.some.inj hsk
        have hd : t2.disabled = t.disabled := congrArg Prod.snd hpair
        have hds : t2.descendants = t.descendants ++ [d2] := congrArg Prod.fst hpair
        refine ⟨t2, rfl, ?_, fun htrue => ?_, fun _ => hds⟩
        · constructor
          · intro htrue
            rw [hd, hdis] at htrue
            cases htrue
          · intro hcap
            exact absurd hcap h2
        · rw [hd, hdis] at htrue
          cases htrue

/-- Witness for C4 on the two-trace heap with a single insertion. -/
theorem fanout_guard_witness :
    (heapW.map Prod.fst).Nodup ∧ fanoutInv (applyOps heapW [(1, 2)]) :=
  ⟨by decide,
   (fanout_guard heapW [(1, 2)] (by decide) (by unfold fanoutInv; decide)).1⟩
